import Mathlib

set_option maxHeartbeats 1000000
set_option maxRecDepth 4000

/-!
Shallow embedding of src/nanogcg/gcg.py (a nanoGCG fork).

Modelling conventions:
  losses (Python floats) are rationals; token id tensors are lists of
  natural numbers; the attack buffer is parametrised over the type of the
  stored sequence.  Randomness and every call into the language model or
  tokenizer are passed in explicitly as function parameters, mirroring the
  data those torch calls hand back to the pure control logic under
  verification.  Fallible Python code (raised exceptions) is modelled with
  Except.
-/

/-- Ordering key used by Python list.sort(key = fun x => x[0]) in
AttackBuffer.add: compare entries by their loss component only. -/
def LossLe {α : Type} (p q : Rat × α) : Prop := p.1 ≤ q.1

instance {α : Type} : DecidableRel (@LossLe α) :=
  fun p q => inferInstanceAs (Decidable (p.1 ≤ q.1))

instance {α : Type} : IsTotal (Rat × α) LossLe :=
  ⟨fun p q => le_total p.1 q.1⟩

instance {α : Type} : IsTrans (Rat × α) LossLe :=
  ⟨fun _ _ _ h h2 => le_trans h h2⟩

/-- Python list.sort with a key is a stable sort; List.insertionSort is
stable, so it models buffer.sort(key = fun x => x[0]). -/
def sortByLoss {α : Type} (l : List (Rat × α)) : List (Rat × α) :=
  List.insertionSort LossLe l

/-- AttackBuffer from gcg.py lines 46-70: a list of (loss, optim_ids)
pairs plus the configured size. -/
structure AttackBuffer (α : Type) where
  buffer : List (Rat × α)
  size : Nat

/-- AttackBuffer.add, gcg.py lines 51-61.  size 0 replaces the whole
buffer; below capacity appends and returns without sorting; at capacity
overwrites the last entry and sorts the result by loss. -/
def AttackBuffer.add {α : Type} (b : AttackBuffer α) (loss : Rat) (optim_ids : α) :
    AttackBuffer α :=
  if b.size = 0 then { b with buffer := [(loss, optim_ids)] }
  else if b.buffer.length < b.size then { b with buffer := b.buffer ++ [(loss, optim_ids)] }
  else { b with buffer := sortByLoss (b.buffer.dropLast ++ [(loss, optim_ids)]) }

/-- AttackBuffer.get_best_ids, gcg.py lines 63-64: the ids of the first
buffer entry.  The Python code raises IndexError on an empty buffer,
modelled by returning none. -/
def AttackBuffer.get_best_ids {α : Type} (b : AttackBuffer α) : Option α :=
  b.buffer.head?.map (fun p => p.2)

/-- AttackBuffer.get_lowest_loss, gcg.py lines 66-67: the loss of the
first buffer entry. -/
def AttackBuffer.get_lowest_loss {α : Type} (b : AttackBuffer α) : Option Rat :=
  b.buffer.head?.map (fun p => p.1)

/-- AttackBuffer.get_highest_loss, gcg.py lines 69-70: the loss of the
last buffer entry. -/
def AttackBuffer.get_highest_loss {α : Type} (b : AttackBuffer α) : Option Rat :=
  b.buffer.getLast?.map (fun p => p.1)

/-- A sequence of add calls applied in order. -/
def applyAdds {α : Type} (b : AttackBuffer α) (ops : List (Rat × α)) : AttackBuffer α :=
  ops.foldl (fun c p => c.add p.1 p.2) b

/-- filter_ids, gcg.py lines 128-157.  The tokenizer is passed in as the
pair of pure functions dec (batch_decode of one sequence) and enc
(re-tokenization with add_special_tokens set to False).  A candidate is
kept exactly when re-encoding its decoded text gives back the same ids;
if no candidate survives, the Python code raises RuntimeError, modelled
as Except.error. -/
def filter_ids (dec : List Nat → String) (enc : String → List Nat)
    (ids : List (List Nat)) : Except String (List (List Nat)) :=
  if (ids.filter (fun s => decide (enc (dec s) = s))).isEmpty then
    Except.error "No token sequences are the same after decoding and re-encoding. Consider setting filter_ids=False or trying a different optim_str_init"
  else
    Except.ok (ids.filter (fun s => decide (enc (dec s) = s)))

/-- Comparison used to model torch.topk on one masked gradient row:
entries compare by gradient value with plus infinity (a masked entry,
modelled as none) largest, and equal values compare by column index.
The K smallest entries under this order are the indices returned by
topk on the negated gradient, with ties resolved to the lower index as
on the torch CPU backend. -/
def keyLe (p q : Option Rat × Nat) : Bool :=
  match p.1, q.1 with
  | some a, some b => if a = b then decide (p.2 ≤ q.2) else decide (a < b)
  | some _, none => true
  | none, some _ => false
  | none, none => decide (p.2 ≤ q.2)

/-- Propositional form of keyLe, for List.insertionSort. -/
def KeyLe (p q : Option Rat × Nat) : Prop := keyLe p q = true

instance : DecidableRel KeyLe :=
  fun p q => inferInstanceAs (Decidable (keyLe p q = true))

instance : IsTotal (Option Rat × Nat) KeyLe := by
  constructor
  rintro ⟨pv, pi⟩ ⟨qv, qi⟩
  cases pv with
  | none =>
    cases qv with
    | none =>
      simp only [KeyLe, keyLe, if_true, decide_eq_true_eq]
      exact Nat.le_total pi qi
    | some b => simp [KeyLe, keyLe]
  | some a =>
    cases qv with
    | none => simp [KeyLe, keyLe]
    | some b =>
      by_cases hab : a = b
      · subst hab
        simp only [KeyLe, keyLe, if_true, decide_eq_true_eq]
        exact Nat.le_total pi qi
      · simp only [KeyLe, keyLe, if_neg hab, if_neg (Ne.symm hab), decide_eq_true_eq]
        exact lt_or_gt_of_ne hab

instance : IsTrans (Option Rat × Nat) KeyLe := by
  constructor
  rintro ⟨pv, pi⟩ ⟨qv, qi⟩ ⟨rv, ri⟩ h1 h2
  cases pv with
  | none =>
    cases qv with
    | none =>
      cases rv with
      | none =>
        simp only [KeyLe, keyLe, if_true, decide_eq_true_eq] at h1 h2 ⊢
        exact Nat.le_trans h1 h2
      | some c => simp [KeyLe, keyLe] at h2
    | some b => simp [KeyLe, keyLe] at h1
  | some a =>
    cases qv with
    | none =>
      cases rv with
      | none => simp [KeyLe, keyLe]
      | some c => simp [KeyLe, keyLe] at h2
    | some b =>
      cases rv with
      | none => simp [KeyLe, keyLe]
      | some c =>
        simp only [KeyLe, keyLe] at h1 h2 ⊢
        by_cases hab : a = b
        · subst hab
          by_cases hbc : a = c
          · subst hbc
            simp only [if_true, decide_eq_true_eq] at h1 h2 ⊢
            exact Nat.le_trans h1 h2
          · simp only [if_neg hbc, decide_eq_true_eq] at h2 ⊢
            exact h2
        · by_cases hbc : b = c
          · subst hbc
            simp only [if_neg hab, decide_eq_true_eq] at h1 ⊢
            exact h1
          · by_cases hac : a = c
            · subst hac
              simp only [if_neg hab, decide_eq_true_eq] at h1
              simp only [if_neg hbc, decide_eq_true_eq] at h2
              exact absurd (lt_trans h1 h2) (lt_irrefl a)
            · simp only [if_neg hab, decide_eq_true_eq] at h1
              simp only [if_neg hbc, decide_eq_true_eq] at h2
              simp only [if_neg hac, decide_eq_true_eq]
              exact lt_trans h1 h2

/-- Lines 112-115 of gcg.py for one gradient row: the entries at columns
in not_allowed_ids are forced to plus infinity (none), then topk on the
negated row selects the K smallest remaining entries; the result is the
list of selected column indices, ordered by ascending gradient value. -/
def topkIdsRow (K : Nat) (row : List Rat) (not_allowed_ids : List Nat) : List Nat :=
  ((List.insertionSort KeyLe ((List.range row.length).map
      (fun j => (if j ∈ not_allowed_ids then (none : Option Rat) else some (row.getD j 0),
        j)))).take K).map (fun p => p.2)

/-- The random tensors consumed by sample_ids_from_grad: perm w models
row w of torch.argsort(torch.rand(search_width, n_optim_tokens)), a
uniformly random permutation of the position range, and val w r models
entry (w, r) of torch.randint(0, topk, (search_width, n_replace, 1)). -/
structure SamplerRand where
  perm : Nat → List Nat
  val : Nat → Nat → Nat

/-- Line 124: scatter_ of (position, value) updates into one row of the
repeated original ids. -/
def scatterList (l : List Nat) : List (Nat × Nat) → List Nat
  | [] => l
  | u :: us => scatterList (l.set u.1 u.2) us

/-- Line 117: the position slots chosen for candidate w are the first
n_replace entries of its random permutation. -/
def samplePositions (rnd : SamplerRand) (n_replace w : Nat) : List Nat :=
  (rnd.perm w).take n_replace

/-- sample_ids_from_grad, gcg.py lines 81-126.  For each of the
search_width candidates, the chosen positions receive the token drawn
from the top-K list of that position (indexed by the corresponding
random draw); all other positions keep the original ids. -/
def sample_ids_from_grad (ids : List Nat) (grad : List (List Rat))
    (search_width topk n_replace : Nat) (not_allowed_ids : List Nat)
    (rnd : SamplerRand) : List (List Nat) :=
  (List.range search_width).map (fun w =>
    scatterList ids
      ((samplePositions rnd n_replace w).enum.map
        (fun rp => (rp.2,
          ((grad.map (fun row => topkIdsRow topk row not_allowed_ids)).getD rp.2 []).getD
            (rnd.val w rp.1) 0))))

/-- GCGResult, gcg.py lines 36-44. -/
structure GCGResult where
  best_loss : Rat
  best_score : Rat
  best_string : String
  losses : List Rat
  scores : List Rat
  strings : List String
  number_of_steps : Nat
  deriving DecidableEq

/-- The per-step data the optimization loop reads from the model stack:
oracle i x is the batch of (loss, candidate ids) pairs surviving at
step i when the current optim ids are x (sampling, filtering and
scoring fused, gcg.py lines 250-287); score models custom_score_func
(line 289); decode models tokenizer.batch_decode (line 301). -/
structure GCGEnv (α : Type) where
  oracle : Nat → α → List (Rat × α)
  score : Rat → Rat
  decode : α → String

/-- The mutable state of the loop in GCG.run: the attack buffer, the
current optim ids and the three history lists (lines 239-245). -/
structure LoopState (α : Type) where
  buffer : AttackBuffer α
  optimIds : α
  losses : List Rat
  scores : List Rat
  optimStrings : List String

/-- loss.min().item() together with sampled_ids[loss.argmin()]: the
first candidate attaining the minimal loss (lines 288-290); none on an
empty batch, where torch would raise. -/
def firstMinPair {α : Type} : List (Rat × α) → Option (Rat × α)
  | [] => none
  | p :: ps =>
    match firstMinPair ps with
    | none => some p
    | some q => if p.1 ≤ q.1 then some p else some q

/-- current_loss < self.stopping_point (line 298); none models the
default -torch.inf, under which the comparison is always false. -/
def ltStop (l : Rat) : Option Rat → Bool
  | none => false
  | some s => decide (l < s)

/-- One iteration of the loop body, gcg.py lines 247-316: take the
best-of-step candidate, append its loss and score to the histories,
update the buffer only when the buffer size is 0 or the loss beats the
loss of the last buffer entry (line 295), make the buffer best the new
optim ids, record its decoded string, and return the stopping flag. -/
def sstep {α : Type} (env : GCGEnv α) (sp : Option Rat) (i : Nat) (st : LoopState α) :
    Except String (LoopState α × Bool) :=
  match firstMinPair (env.oracle i st.optimIds) with
  | none => Except.error "RuntimeError: empty candidate batch"
  | some m =>
    match
      (if st.buffer.size = 0 then Except.ok (st.buffer.add m.1 m.2)
       else
         match st.buffer.get_highest_loss with
         | none => Except.error "IndexError: buffer is empty"
         | some hl => Except.ok (if m.1 < hl then st.buffer.add m.1 m.2 else st.buffer)) with
    | Except.error e => Except.error e
    | Except.ok buf =>
      match buf.get_best_ids with
      | none => Except.error "IndexError: buffer is empty"
      | some bids =>
        Except.ok
          ({ buffer := buf, optimIds := bids, losses := st.losses ++ [m.1],
             scores := st.scores ++ [env.score m.1],
             optimStrings := st.optimStrings ++ [env.decode bids] },
           ltStop m.1 sp)

/-- The loop for i in range(num_steps), line 247, with the early break
of line 314. -/
def runSteps {α : Type} (env : GCGEnv α) (sp : Option Rat) :
    Nat → Nat → LoopState α → Except String (LoopState α)
  | 0, _, st => Except.ok st
  | n + 1, i, st =>
    match sstep env sp i st with
    | Except.error e => Except.error e
    | Except.ok r =>
      if r.2 then Except.ok r.1 else runSteps env sp n (i + 1) r.1

/-- losses.index(min(losses)), line 318: the first index of the minimal
element; none on the empty list, where Python min raises ValueError. -/
def idxOfMin : List Rat → Option Nat
  | [] => none
  | x :: xs =>
    match idxOfMin xs with
    | none => some 0
    | some j => if x ≤ xs.getD j 0 then some 0 else some (j + 1)

/-- GCG.run, gcg.py lines 239-330, from the point where the attack
buffer has been initialized: loop starting from the best ids of the
initial buffer, then build the result from the recorded histories at
the first index of the minimal recorded loss.  number_of_steps is i+1,
which equals the number of executed iterations. -/
def runGCG {α : Type} (env : GCGEnv α) (numSteps : Nat) (sp : Option Rat)
    (b0 : AttackBuffer α) : Except String GCGResult :=
  match b0.get_best_ids with
  | none => Except.error "IndexError: buffer is empty"
  | some ids0 =>
    match runSteps env sp numSteps 0 (LoopState.mk b0 ids0 [] [] []) with
    | Except.error e => Except.error e
    | Except.ok st =>
      match idxOfMin st.losses with
      | none => Except.error "ValueError: min of an empty sequence"
      | some m =>
        Except.ok (GCGResult.mk (st.losses.getD m 0) (st.scores.getD m 0)
          (st.optimStrings.getD m "") st.losses st.scores st.optimStrings
          st.losses.length)

/-- A concrete one-candidate environment used to evaluate the loop: the
single candidate of every step has loss 2 and ids 20; scores are the
identity; ids decode to their decimal string. -/
def demoEnv : GCGEnv Nat := GCGEnv.mk (fun _ _ => [(2, 20)]) id (fun n => toString n)

/-- A concrete size-1 buffer holding loss 1 with ids 10. -/
def demoBuffer : AttackBuffer Nat := AttackBuffer.mk [(1, 10)] 1

/- ------------------------------------------------------------------ -/
/- Helper lemmas about the buffer model.                               -/
/- ------------------------------------------------------------------ -/

theorem sortByLoss_perm {α : Type} (l : List (Rat × α)) : (sortByLoss l).Perm l :=
  List.perm_insertionSort LossLe l

theorem sortByLoss_sorted {α : Type} (l : List (Rat × α)) :
    (sortByLoss l).Pairwise LossLe :=
  List.sorted_insertionSort LossLe l

theorem sortByLoss_length {α : Type} (l : List (Rat × α)) :
    (sortByLoss l).length = l.length :=
  List.length_insertionSort LossLe l

theorem AttackBuffer.add_size {α : Type} (b : AttackBuffer α) (l : Rat) (x : α) :
    (b.add l x).size = b.size := by
  unfold AttackBuffer.add
  split <;> [rfl; skip]
  split <;> rfl

theorem AttackBuffer.add_length_le {α : Type} (b : AttackBuffer α) (l : Rat) (x : α)
    (hs : b.size ≠ 0) (hlen : b.buffer.length ≤ b.size) :
    (b.add l x).buffer.length ≤ b.size := by
  unfold AttackBuffer.add
  split
  · omega
  · split
    · simp only [List.length_append, List.length_cons, List.length_nil]
      omega
    · simp only [sortByLoss_length, List.length_append, List.length_dropLast,
        List.length_cons, List.length_nil]
      omega

theorem head_min_of_pairwise {α : Type} (p : Rat × α) (ps : List (Rat × α))
    (h : (p :: ps).Pairwise LossLe) : ∀ q ∈ p :: ps, p.1 ≤ q.1 := by
  intro q hq
  rcases List.mem_cons.mp hq with h1 | h2
  · subst h1; exact le_refl _
  · exact (List.pairwise_cons.mp h).1 q h2

theorem le_getLast_of_pairwise {α : Type} :
    ∀ (l : List (Rat × α)) (hne : l ≠ []), l.Pairwise LossLe →
      ∀ q ∈ l, q.1 ≤ (l.getLast hne).1 := by
  intro l
  induction l with
  | nil => intro hne; exact absurd rfl hne
  | cons p ps ih =>
    intro hne hp q hq
    cases ps with
    | nil =>
      simp only [List.mem_singleton] at hq
      subst hq
      simp [List.getLast]
    | cons r rs =>
      have hlast : ((p :: r :: rs).getLast hne) = ((r :: rs).getLast (by simp)) := by
        simp [List.getLast]
      rw [hlast]
      rcases List.mem_cons.mp hq with h1 | h2
      · subst h1
        have hmem := List.getLast_mem (l := r :: rs) (by simp)
        exact (List.pairwise_cons.mp hp).1 _ hmem
      · exact ih (by simp) (List.pairwise_cons.mp hp).2 q h2

/- ------------------------------------------------------------------ -/
/- Claim theorems for the attack buffer.                               -/
/- ------------------------------------------------------------------ -/

/-- C1: AttackBuffer.add satisfies the three-case contract.  If the
buffer is empty or the capacity is 0 the buffer becomes the single entry
(loss, sequence); otherwise if the buffer is below capacity the entry is
appended unchanged with no sorting; otherwise the result is a
permutation of the buffer with its last entry replaced by the new one,
sorted ascending by loss. -/
theorem attackBuffer_add_contract {α : Type} (b : AttackBuffer α) (l : Rat) (x : α) :
    ((b.buffer = [] ∨ b.size = 0) → (b.add l x).buffer = [(l, x)]) ∧
    (b.buffer ≠ [] → b.size ≠ 0 → b.buffer.length < b.size →
      (b.add l x).buffer = b.buffer ++ [(l, x)]) ∧
    (b.size ≠ 0 → ¬ b.buffer.length < b.size →
      ((b.add l x).buffer).Perm (b.buffer.dropLast ++ [(l, x)]) ∧
      (b.add l x).buffer.Pairwise LossLe) := by
  refine ⟨?_, ?_, ?_⟩
  · intro h
    unfold AttackBuffer.add
    rcases h with he | hz
    · by_cases hz : b.size = 0
      · simp [hz]
      · have hpos : 0 < b.size := by omega
        simp [hz, he, hpos]
    · simp [hz]
  · intro _ hz hlt
    unfold AttackBuffer.add
    simp [hz, hlt]
  · intro hz hge
    unfold AttackBuffer.add
    simp only [hz, if_false, hge]
    exact ⟨sortByLoss_perm _, sortByLoss_sorted _⟩

/-- C1 witness: the three cases exercised at concrete buffers. -/
theorem attackBuffer_add_contract_witness :
    ((AttackBuffer.mk ([] : List (Rat × String)) 3).add 5 "a").buffer = [(5, "a")] ∧
    ((AttackBuffer.mk [((5 : Rat), "a")] 3).add 2 "b").buffer = [(5, "a"), (2, "b")] ∧
    ((((AttackBuffer.mk [((4 : Rat), "m"), ((1 : Rat), "n")] 2).add 2 "e").buffer).Perm
        [(4, "m"), (2, "e")] ∧
      ((AttackBuffer.mk [((4 : Rat), "m"), ((1 : Rat), "n")] 2).add 2 "e").buffer.Pairwise
        LossLe) := by
  refine ⟨?_, ?_, ?_⟩
  · exact (attackBuffer_add_contract (AttackBuffer.mk [] 3) 5 "a").1 (Or.inl rfl)
  · exact (attackBuffer_add_contract (AttackBuffer.mk [(5, "a")] 3) 2 "b").2.1
      (by decide) (by decide) (by decide)
  · exact (attackBuffer_add_contract (AttackBuffer.mk [(4, "m"), (1, "n")] 2) 2 "e").2.2
      (by decide) (by decide)

/-- C2 counterexample: with capacity 3, after add(5, a) then add(2, b)
the buffer is the unsorted [(5, a), (2, b)], so get_best_ids returns a,
not b, although the smallest resident loss 2 belongs to b. -/
theorem attackBuffer_best_cex :
    (((AttackBuffer.mk ([] : List (Rat × String)) 3).add 5 "a").add 2 "b").buffer
        = [(5, "a"), (2, "b")] ∧
    (((AttackBuffer.mk ([] : List (Rat × String)) 3).add 5 "a").add 2 "b").get_best_ids
        = some "a" ∧
    (((AttackBuffer.mk ([] : List (Rat × String)) 3).add 5 "a").add 2 "b").get_lowest_loss
        = some 5 ∧
    ((2 : Rat), "b") ∈ (((AttackBuffer.mk ([] : List (Rat × String)) 3).add 5 "a").add 2 "b").buffer ∧
    (2 : Rat) < 5 ∧ "a" ≠ "b" := by
  refine ⟨?_, ?_, ?_, ?_, by norm_num, by decide⟩ <;> decide

/-- C2 (amended): best() returns the sequence of the first buffer entry;
whenever the buffer is sorted ascending by loss (for example after any
at-capacity add, or with capacity at most 1) that entry has the smallest
resident loss.  On an unsorted below-capacity buffer, as in Scenario B,
best() can return a sequence whose loss is not minimal. -/
theorem attackBuffer_best_amended {α : Type} (b : AttackBuffer α)
    (hs : b.buffer.Pairwise LossLe) (hne : b.buffer ≠ []) :
    ∃ p, p ∈ b.buffer ∧ b.get_best_ids = some p.2 ∧ b.get_lowest_loss = some p.1 ∧
      ∀ q ∈ b.buffer, p.1 ≤ q.1 := by
  rcases List.exists_cons_of_ne_nil hne with ⟨p, ps, hcons⟩
  refine ⟨p, ?_, ?_, ?_, ?_⟩
  · rw [hcons]; exact List.mem_cons_self p ps
  · rw [AttackBuffer.get_best_ids, hcons]; rfl
  · rw [AttackBuffer.get_lowest_loss, hcons]; rfl
  · intro q hq
    rw [hcons] at hs hq
    exact head_min_of_pairwise p ps hs q hq

/-- C2 witness: the amended statement evaluated on a concrete sorted
buffer. -/
theorem attackBuffer_best_amended_witness :
    ∃ p, p ∈ (AttackBuffer.mk [((1 : Rat), "u"), ((4 : Rat), "v")] 2).buffer ∧
      (AttackBuffer.mk [((1 : Rat), "u"), ((4 : Rat), "v")] 2).get_best_ids = some p.2 ∧
      (AttackBuffer.mk [((1 : Rat), "u"), ((4 : Rat), "v")] 2).get_lowest_loss = some p.1 ∧
      ∀ q ∈ (AttackBuffer.mk [((1 : Rat), "u"), ((4 : Rat), "v")] 2).buffer, p.1 ≤ q.1 :=
  attackBuffer_best_amended _ (by decide) (by decide)

/-- C5: once an AttackBuffer with capacity greater than 1 is at
capacity, every further add leaves the buffer sorted ascending by loss
with its length equal to the capacity; and starting from an empty buffer
the length never exceeds the capacity. -/
theorem attackBuffer_capacity_invariant {α : Type} :
    (∀ (size : Nat) (ops : List (Rat × α)), 1 < size →
      (applyAdds (AttackBuffer.mk [] size) ops).buffer.length ≤ size) ∧
    (∀ (b : AttackBuffer α) (l : Rat) (x : α), 1 < b.size →
      b.buffer.length = b.size →
      (b.add l x).buffer.Pairwise LossLe ∧ (b.add l x).buffer.length = b.size) := by
  constructor
  · intro size ops hsz
    have key : ∀ (ops : List (Rat × α)) (b : AttackBuffer α), b.size = size →
        b.buffer.length ≤ size → (applyAdds b ops).buffer.length ≤ size := by
      intro ops
      induction ops with
      | nil => intro b _ hb; exact hb
      | cons p ps ih =>
        intro b hbs hb
        have h1 : (b.add p.1 p.2).size = size := by rw [AttackBuffer.add_size, hbs]
        have h2 : (b.add p.1 p.2).buffer.length ≤ size := by
          have := AttackBuffer.add_length_le b p.1 p.2 (by omega) (by omega)
          omega
        exact ih (b.add p.1 p.2) h1 h2
    exact key ops _ rfl (by simp)
  · intro b l x hsz hlen
    have hz : ¬ b.size = 0 := by omega
    have hge : ¬ b.buffer.length < b.size := by omega
    constructor
    · unfold AttackBuffer.add
      simp only [hz, if_false, hge]
      exact sortByLoss_sorted _
    · unfold AttackBuffer.add
      simp only [hz, if_false, hge]
      simp only [sortByLoss_length, List.length_append, List.length_dropLast,
        List.length_cons, List.length_nil]
      omega

/-- C5 witness: the two conjuncts evaluated at concrete inputs. -/
theorem attackBuffer_capacity_invariant_witness :
    (applyAdds (AttackBuffer.mk ([] : List (Rat × String)) 2)
        [(3, "p"), (1, "q"), (2, "r")]).buffer.length ≤ 2 ∧
    (((AttackBuffer.mk [((1 : Rat), "q"), ((3 : Rat), "p")] 2).add 2 "r").buffer.Pairwise LossLe ∧
      ((AttackBuffer.mk [((1 : Rat), "q"), ((3 : Rat), "p")] 2).add 2 "r").buffer.length = 2) :=
  ⟨attackBuffer_capacity_invariant.1 2 [(3, "p"), (1, "q"), (2, "r")] (by decide),
   attackBuffer_capacity_invariant.2 (AttackBuffer.mk [(1, "q"), (3, "p")] 2) 2 "r"
     (by decide) (by decide)⟩

/-- C6 counterexample: with capacity 3, after add(7, x) then add(3, y)
the buffer is the unsorted [(7, x), (3, y)], so get_highest_loss returns
3 although loss 7 is resident. -/
theorem attackBuffer_worst_cex :
    (((AttackBuffer.mk ([] : List (Rat × String)) 3).add 7 "x").add 3 "y").get_highest_loss
        = some 3 ∧
    ((7 : Rat), "x") ∈ (((AttackBuffer.mk ([] : List (Rat × String)) 3).add 7 "x").add 3 "y").buffer ∧
    ¬ ((7 : Rat) ≤ 3) := by
  refine ⟨?_, ?_, by norm_num⟩ <;> decide

/-- C6 (amended): worst_loss() returns the loss of the last buffer
entry; whenever the buffer is sorted ascending by loss (for example
after any at-capacity add) that loss is the largest resident one.  On an
unsorted below-capacity buffer it can be smaller than the maximum. -/
theorem attackBuffer_worst_amended {α : Type} (b : AttackBuffer α)
    (hs : b.buffer.Pairwise LossLe) (hne : b.buffer ≠ []) :
    ∃ m, b.get_highest_loss = some m ∧ (∃ q ∈ b.buffer, q.1 = m) ∧
      ∀ q ∈ b.buffer, q.1 ≤ m := by
  refine ⟨(b.buffer.getLast hne).1, ?_, ?_, ?_⟩
  · rw [AttackBuffer.get_highest_loss, List.getLast?_eq_getLast _ hne]; rfl
  · exact ⟨b.buffer.getLast hne, List.getLast_mem hne, rfl⟩
  · exact le_getLast_of_pairwise b.buffer hne hs

/-- C6 witness: the amended statement evaluated on a concrete sorted
buffer. -/
theorem attackBuffer_worst_amended_witness :
    ∃ m, (AttackBuffer.mk [((1 : Rat), "u"), ((4 : Rat), "v")] 2).get_highest_loss = some m ∧
      (∃ q ∈ (AttackBuffer.mk [((1 : Rat), "u"), ((4 : Rat), "v")] 2).buffer, q.1 = m) ∧
      ∀ q ∈ (AttackBuffer.mk [((1 : Rat), "u"), ((4 : Rat), "v")] 2).buffer, q.1 ≤ m :=
  attackBuffer_worst_amended _ (by decide) (by decide)

/-- C4: the token filter keeps a candidate sequence if and only if
decoding it and re-tokenizing the text (with no added special tokens)
yields back exactly the same token sequence, and every sequence in the
returned batch satisfies this round-trip law. -/
theorem filter_ids_roundtrip (dec : List Nat → String) (enc : String → List Nat)
    (ids out : List (List Nat)) (h : filter_ids dec enc ids = Except.ok out) :
    (∀ s ∈ out, enc (dec s) = s) ∧
    (∀ s ∈ ids, (s ∈ out ↔ enc (dec s) = s)) := by
  unfold filter_ids at h
  split at h
  · simp at h
  · replace h : ids.filter (fun s => decide (enc (dec s) = s)) = out := by
      simpa using h
    subst h
    constructor
    · intro s hs
      have := List.of_mem_filter hs
      simpa using this
    · intro s hs
      constructor
      · intro hmem
        have := List.of_mem_filter hmem
        simpa using this
      · intro hrt
        exact List.mem_filter.mpr ⟨hs, by simpa using hrt⟩

/-- C4 witness: the round-trip law evaluated on a concrete encoder and
decoder pair. -/
theorem filter_ids_roundtrip_witness :
    (∀ s ∈ [[0]], (fun _ => [(0 : Nat)]) ((fun _ => "t") s) = s) ∧
    (∀ s ∈ [[(0 : Nat)], [1]],
      (s ∈ [[0]] ↔ (fun _ => [(0 : Nat)]) ((fun _ => "t") s) = s)) :=
  filter_ids_roundtrip (fun _ => "t") (fun _ => [0]) [[0], [1]] [[0]] rfl

/-- C9: the token filter fails with an unrecoverable error exactly when
zero candidates survive the round-trip check, and returns normally with
a nonempty batch exactly when at least one candidate survives.  The
embedding is a pure Except value: the error is produced at the point of
the check and there is no retry path. -/
theorem filter_ids_error_iff (dec : List Nat → String) (enc : String → List Nat)
    (ids : List (List Nat)) :
    ((∃ msg, filter_ids dec enc ids = Except.error msg) ↔
      ∀ s ∈ ids, enc (dec s) ≠ s) ∧
    ((∃ out, filter_ids dec enc ids = Except.ok out ∧ out ≠ []) ↔
      ∃ s ∈ ids, enc (dec s) = s) := by
  have hkey : (ids.filter (fun s => decide (enc (dec s) = s))).isEmpty = true ↔
      ∀ s ∈ ids, enc (dec s) ≠ s := by
    rw [List.isEmpty_iff]
    constructor
    · intro hnil s hs hrt
      have : s ∈ ids.filter (fun s => decide (enc (dec s) = s)) :=
        List.mem_filter.mpr ⟨hs, by simpa using hrt⟩
      simp [hnil] at this
    · intro hall
      rw [List.filter_eq_nil_iff]
      intro s hs
      simpa using hall s hs
  constructor
  · constructor
    · rintro ⟨msg, hmsg⟩
      unfold filter_ids at hmsg
      split at hmsg
      · rename_i hc
        exact hkey.mp hc
      · simp at hmsg
    · intro hall
      unfold filter_ids
      rw [if_pos (hkey.mpr hall)]
      exact ⟨_, rfl⟩
  · constructor
    · rintro ⟨out, hout, hne⟩
      unfold filter_ids at hout
      split at hout
      · simp at hout
      · replace hout : ids.filter (fun s => decide (enc (dec s) = s)) = out := by
          simpa using hout
        subst hout
        rcases List.exists_cons_of_ne_nil hne with ⟨s, rest, hcons⟩
        have hs : s ∈ ids.filter (fun s => decide (enc (dec s) = s)) := by
          rw [hcons]; exact List.mem_cons_self s rest
        exact ⟨s, List.mem_of_mem_filter hs, by simpa using List.of_mem_filter hs⟩
    · rintro ⟨s, hs, hrt⟩
      have hmem : s ∈ ids.filter (fun s => decide (enc (dec s) = s)) :=
        List.mem_filter.mpr ⟨hs, by simpa using hrt⟩
      have hemp : ¬ (ids.filter (fun s => decide (enc (dec s) = s))).isEmpty = true := by
        intro hc
        rw [List.isEmpty_iff] at hc
        rw [hc] at hmem
        simp at hmem
      unfold filter_ids
      rw [if_neg hemp]
      refine ⟨_, rfl, ?_⟩
      intro hnil
      rw [hnil] at hmem
      simp at hmem

/-- C9 witness: the filter succeeds on a batch with one surviving
candidate. -/
theorem filter_ids_error_iff_witness :
    ∃ out, filter_ids (fun _ => "t") (fun _ => [(0 : Nat)]) [[0], [1]] = Except.ok out ∧
      out ≠ [] :=
  (filter_ids_error_iff (fun _ => "t") (fun _ => [0]) [[0], [1]]).2.mpr
    ⟨[0], by decide, by decide⟩

/- ------------------------------------------------------------------ -/
/- Helper lemmas about the sampler model.                              -/
/- ------------------------------------------------------------------ -/

theorem scatterList_length (us : List (Nat × Nat)) :
    ∀ l : List Nat, (scatterList l us).length = l.length := by
  induction us with
  | nil => intro l; rfl
  | cons u us ih =>
    intro l
    simp only [scatterList, ih, List.length_set]

theorem scatterList_getD_not_mem (i d : Nat) (us : List (Nat × Nat)) :
    ∀ l : List Nat, i ∉ us.map Prod.fst →
      (scatterList l us).getD i d = l.getD i d := by
  induction us with
  | nil => intro l _; rfl
  | cons u us ih =>
    intro l hi
    simp only [List.map_cons, List.mem_cons] at hi
    push_neg at hi
    simp only [scatterList]
    rw [ih _ hi.2]
    simp only [List.getD_eq_getElem?_getD]
    rw [List.getElem?_set_ne (Ne.symm hi.1)]

theorem scatterList_getD_mem (us : List (Nat × Nat)) :
    ∀ (l : List Nat) (p v : Nat), (us.map Prod.fst).Nodup → (p, v) ∈ us →
      p < l.length → (scatterList l us).getD p 0 = v := by
  induction us with
  | nil => intro l p v _ hm; simp at hm
  | cons u us ih =>
    intro l p v hnd hm hp
    simp only [List.map_cons, List.nodup_cons] at hnd
    rcases List.mem_cons.mp hm with h1 | h2
    · subst h1
      simp only [scatterList]
      rw [scatterList_getD_not_mem _ _ _ _ (by simpa using hnd.1)]
      simp only [List.getD_eq_getElem?_getD]
      rw [List.getElem?_set_self hp]
      rfl
    · simp only [scatterList]
      refine ih _ p v hnd.2 h2 ?_
      rw [List.length_set]
      exact hp

theorem getD_mem_of_lt (l : List Nat) (n : Nat) (h : n < l.length) : l.getD n 0 ∈ l := by
  rw [List.getD_eq_getElem?_getD, List.getElem?_eq_getElem h]
  exact List.getElem_mem h

theorem sorted_take_isSome (s : List (Option Rat × Nat)) :
    ∀ K : Nat, s.Pairwise KeyLe → K ≤ s.countP (fun p => p.1.isSome) →
      ∀ q ∈ s.take K, q.1.isSome := by
  induction s with
  | nil => intro K _ _ q hq; simp at hq
  | cons a as ih =>
    intro K hp hcnt q hq
    cases K with
    | zero => simp at hq
    | succ k =>
      rw [List.take_succ_cons] at hq
      by_cases ha : a.1.isSome
      · rcases List.mem_cons.mp hq with h1 | h2
        · rw [h1]; exact ha
        · refine ih k (List.pairwise_cons.mp hp).2 ?_ q h2
          rw [List.countP_cons_of_pos _ _ (by simpa using ha)] at hcnt
          omega
      · exfalso
        have hnone : a.1 = none := Option.not_isSome_iff_eq_none.mp (by simpa using ha)
        have hall : ∀ x ∈ a :: as, ¬ ((fun p : Option Rat × Nat => p.1.isSome) x = true) := by
          intro x hx
          rcases List.mem_cons.mp hx with h1 | h2
          · subst h1
            simp [hnone]
          · have hk := (List.pairwise_cons.mp hp).1 x h2
            obtain ⟨xv, xi⟩ := x
            cases xv with
            | none => simp
            | some b =>
              exfalso
              obtain ⟨av, ai⟩ := a
              simp only at hnone
              subst hnone
              simp [KeyLe, keyLe] at hk
        have hzero : (a :: as).countP (fun p => p.1.isSome) = 0 :=
          List.countP_eq_zero.mpr hall
        omega

theorem topkIdsRow_length (K : Nat) (row : List Rat) (na : List Nat) :
    (topkIdsRow K row na).length = min K row.length := by
  unfold topkIdsRow
  rw [List.length_map, List.length_take, List.length_insertionSort, List.length_map,
    List.length_range]

/-- If at least K columns stay unmasked, every index selected by the
top-K computation is an allowed one. -/
theorem topkIdsRow_allowed (K : Nat) (row : List Rat) (na : List Nat)
    (hcnt : K + na.length ≤ row.length) :
    ∀ j ∈ topkIdsRow K row na, j ∉ na := by
  intro j hj hjna
  unfold topkIdsRow at hj
  rcases List.mem_map.mp hj with ⟨q, hq, hq2⟩
  set keyed := (List.range row.length).map
      (fun j => (if j ∈ na then (none : Option Rat) else some (row.getD j 0), j)) with hkeyed
  have hsorted : (List.insertionSort KeyLe keyed).Pairwise KeyLe :=
    List.sorted_insertionSort KeyLe keyed
  have hpermk := List.perm_insertionSort KeyLe keyed
  have hcard : K ≤ (List.insertionSort KeyLe keyed).countP (fun p => p.1.isSome) := by
    rw [hpermk.countP_eq]
    have h1 : keyed.countP (fun p => p.1.isSome) =
        (List.range row.length).countP (fun i => !(decide (i ∈ na))) := by
      rw [hkeyed, List.countP_map]
      refine List.countP_congr ?_
      intro i _
      by_cases hi : i ∈ na <;> simp [hi]
    have h2 : (List.range row.length).countP (fun i => decide (i ∈ na)) ≤ na.length := by
      rw [List.countP_eq_length_filter]
      refine List.Subperm.length_le (List.Nodup.subperm ?_ ?_)
      · exact (List.nodup_range row.length).filter _
      · intro x hx
        simpa using List.of_mem_filter hx
    have h3 : (List.range row.length).countP (fun i => decide (i ∈ na)) +
        (List.range row.length).countP (fun i => !(decide (i ∈ na))) = row.length := by
      have h4 := (List.filter_append_perm (fun i => decide (i ∈ na))
        (List.range row.length)).length_eq
      rw [List.length_append, List.length_range] at h4
      rw [List.countP_eq_length_filter, List.countP_eq_length_filter]
      exact h4
    omega
  have hq_some := sorted_take_isSome _ K hsorted hcard q hq
  have hq_keyed : q ∈ keyed := hpermk.mem_iff.mp (List.mem_of_mem_take hq)
  rcases List.mem_map.mp hq_keyed with ⟨i, hi, hq_eq⟩
  rw [← hq_eq] at hq_some hq2
  simp only at hq2
  subst hq2
  rw [if_pos hjna] at hq_some
  simp at hq_some

theorem sample_row_eq (ids : List Nat) (grad : List (List Rat))
    (W K R : Nat) (na : List Nat) (rnd : SamplerRand) (w : Nat) (hw : w < W) :
    (sample_ids_from_grad ids grad W K R na rnd).getD w [] =
      scatterList ids ((samplePositions rnd R w).enum.map
        (fun rp => (rp.2,
          ((grad.map (fun row => topkIdsRow K row na)).getD rp.2 []).getD
            (rnd.val w rp.1) 0))) := by
  unfold sample_ids_from_grad
  rw [List.getD_eq_getElem?_getD, List.getElem?_map, List.getElem?_range hw]
  rfl

/-- Shared sampler facts: candidate length, the chosen slots, unchanged
positions, and the per-slot substituted value. -/
theorem sampler_slot_spec (ids : List Nat) (grad : List (List Rat))
    (W K R : Nat) (na : List Nat) (rnd : SamplerRand) (w : Nat) (hw : w < W)
    (hperm : (rnd.perm w).Perm (List.range ids.length)) (hR : R ≤ ids.length)
    (hgl : grad.length = ids.length) :
    ((sample_ids_from_grad ids grad W K R na rnd).getD w []).length = ids.length ∧
    (samplePositions rnd R w).Nodup ∧
    (samplePositions rnd R w).length = R ∧
    (∀ p ∈ samplePositions rnd R w, p < ids.length) ∧
    (∀ i, i < ids.length → i ∉ samplePositions rnd R w →
      ((sample_ids_from_grad ids grad W K R na rnd).getD w []).getD i 0 = ids.getD i 0) ∧
    (∀ r, r < R →
      ((sample_ids_from_grad ids grad W K R na rnd).getD w []).getD
          ((samplePositions rnd R w).getD r 0) 0 =
        (topkIdsRow K (grad.getD ((samplePositions rnd R w).getD r 0) []) na).getD
          (rnd.val w r) 0) := by
  have hpermlen : (rnd.perm w).length = ids.length := by
    rw [hperm.length_eq, List.length_range]
  have hnodup : (samplePositions rnd R w).Nodup :=
    (List.take_sublist _ _).nodup (hperm.nodup_iff.mpr (List.nodup_range _))
  have hlenpos : (samplePositions rnd R w).length = R := by
    simp only [samplePositions, List.length_take, hpermlen]
    omega
  have hmem_lt : ∀ p ∈ samplePositions rnd R w, p < ids.length := by
    intro p hp
    exact List.mem_range.mp (hperm.mem_iff.mp (List.mem_of_mem_take hp))
  have hfst : (((samplePositions rnd R w).enum.map
      (fun rp => (rp.2,
        ((grad.map (fun row => topkIdsRow K row na)).getD rp.2 []).getD
          (rnd.val w rp.1) 0))).map Prod.fst) = samplePositions rnd R w := by
    apply List.ext_getElem?
    intro i
    simp only [List.getElem?_map, List.getElem?_enum]
    cases (samplePositions rnd R w)[i]? <;> rfl
  have hrow := sample_row_eq ids grad W K R na rnd w hw
  have hmap_getD : ∀ p, p < ids.length →
      (grad.map (fun row => topkIdsRow K row na)).getD p [] =
        topkIdsRow K (grad.getD p []) na := by
    intro p hp
    have hp2 : p < grad.length := by omega
    simp [List.getD_eq_getElem?_getD, List.getElem?_map, List.getElem?_eq_getElem hp2]
  refine ⟨?_, hnodup, hlenpos, hmem_lt, ?_, ?_⟩
  · rw [hrow, scatterList_length, ]
  · intro i hi hnot
    rw [hrow]
    refine scatterList_getD_not_mem _ _ _ _ ?_
    rw [hfst]
    exact hnot
  · intro r hr
    have hrlen : r < (samplePositions rnd R w).length := by omega
    have hgetd : (samplePositions rnd R w).getD r 0 = (samplePositions rnd R w)[r] := by
      rw [List.getD_eq_getElem?_getD, List.getElem?_eq_getElem hrlen]
      rfl
    have hplt : (samplePositions rnd R w).getD r 0 < ids.length :=
      hmem_lt _ (by rw [hgetd]; exact List.getElem_mem hrlen)
    have henum : (r, (samplePositions rnd R w).getD r 0) ∈
        (samplePositions rnd R w).enum := by
      refine List.getElem?_mem (n := r) ?_
      rw [List.getElem?_enum, List.getElem?_eq_getElem hrlen, hgetd]
      rfl
    have hupd : ((samplePositions rnd R w).getD r 0,
        ((grad.map (fun row => topkIdsRow K row na)).getD
          ((samplePositions rnd R w).getD r 0) []).getD (rnd.val w r) 0) ∈
        ((samplePositions rnd R w).enum.map
          (fun rp => (rp.2,
            ((grad.map (fun row => topkIdsRow K row na)).getD rp.2 []).getD
              (rnd.val w rp.1) 0))) :=
      List.mem_map.mpr ⟨(r, (samplePositions rnd R w).getD r 0), henum, rfl⟩
    rw [hrow]
    rw [scatterList_getD_mem _ ids _ _ (by rw [hfst]; exact hnodup) hupd hplt]
    rw [hmap_getD _ hplt]

/-- C8: each candidate row w produced by sample_ids_from_grad has the
length of the input sequence; its chosen slots are the first n_replace
entries of the random permutation, pairwise distinct valid positions,
n_replace of them; every position outside the chosen slots keeps the
input token; every chosen slot holds a token taken from the precomputed
top-K list of that position; and consequently the candidate differs
from the input in at most n_replace positions.  The hypotheses record
the torch random-source guarantees (perm w is a permutation of the
position range, each random index is below topk) and the tensor shape
side conditions. -/
theorem sample_ids_from_grad_contract (ids : List Nat) (grad : List (List Rat))
    (W K R V : Nat) (na : List Nat) (rnd : SamplerRand) (w : Nat) (hw : w < W)
    (hperm : (rnd.perm w).Perm (List.range ids.length))
    (hR : R ≤ ids.length) (hRpos : 1 ≤ R) (hKpos : 1 ≤ K)
    (hval : ∀ w r, rnd.val w r < K) (hgl : grad.length = ids.length)
    (hrows : ∀ row ∈ grad, row.length = V) (hKV : K ≤ V) :
    ((sample_ids_from_grad ids grad W K R na rnd).getD w []).length = ids.length ∧
    (samplePositions rnd R w).Nodup ∧
    (samplePositions rnd R w).length = R ∧
    (∀ p ∈ samplePositions rnd R w, p < ids.length) ∧
    (∀ i, i < ids.length → i ∉ samplePositions rnd R w →
      ((sample_ids_from_grad ids grad W K R na rnd).getD w []).getD i 0 = ids.getD i 0) ∧
    (∀ r, r < R →
      ((sample_ids_from_grad ids grad W K R na rnd).getD w []).getD
          ((samplePositions rnd R w).getD r 0) 0 ∈
        topkIdsRow K (grad.getD ((samplePositions rnd R w).getD r 0) []) na) ∧
    ((List.range ids.length).filter (fun i =>
      decide (((sample_ids_from_grad ids grad W K R na rnd).getD w []).getD i 0 ≠
        ids.getD i 0))).length ≤ R := by
  obtain ⟨hlen, hnodup, hlenpos, hmemlt, hunch, hslot⟩ :=
    sampler_slot_spec ids grad W K R na rnd w hw hperm hR hgl
  refine ⟨hlen, hnodup, hlenpos, hmemlt, hunch, ?_, ?_⟩
  · intro r hr
    rw [hslot r hr]
    have hplt : (samplePositions rnd R w).getD r 0 < ids.length := by
      refine hmemlt _ ?_
      have hrlen : r < (samplePositions rnd R w).length := by omega
      refine getD_mem_of_lt _ _ hrlen
    have hrowlen : (grad.getD ((samplePositions rnd R w).getD r 0) []).length = V := by
      refine hrows _ ?_
      have hplt2 : (samplePositions rnd R w).getD r 0 < grad.length := by omega
      rw [List.getD_eq_getElem?_getD, List.getElem?_eq_getElem hplt2]
      exact List.getElem_mem hplt2
    refine getD_mem_of_lt _ _ ?_
    rw [topkIdsRow_length, hrowlen]
    have := hval w r
    omega
  · have hsubset : ∀ i ∈ (List.range ids.length).filter (fun i =>
        decide (((sample_ids_from_grad ids grad W K R na rnd).getD w []).getD i 0 ≠
          ids.getD i 0)), i ∈ samplePositions rnd R w := by
      intro i hi
      have hir := List.mem_of_mem_filter hi
      have hif := List.of_mem_filter hi
      by_contra hnot
      exact (of_decide_eq_true hif) (hunch i (List.mem_range.mp hir) hnot)
    calc ((List.range ids.length).filter _).length
        ≤ (samplePositions rnd R w).length :=
          List.Subperm.length_le
            (List.Nodup.subperm ((List.nodup_range _).filter _) hsubset)
      _ = R := hlenpos

/-- C8 witness: the contract evaluated at a concrete two-position
sampler input. -/
theorem sample_ids_from_grad_contract_witness :
    ((sample_ids_from_grad [10, 11] [[0, 1, 2], [3, 4, 5]] 1 2 1 []
        (SamplerRand.mk (fun _ => [1, 0]) (fun _ _ => 1))).getD 0 []).length = 2 ∧
    ((List.range 2).filter (fun i =>
      decide (((sample_ids_from_grad [10, 11] [[0, 1, 2], [3, 4, 5]] 1 2 1 []
        (SamplerRand.mk (fun _ => [1, 0]) (fun _ _ => 1))).getD 0 []).getD i 0 ≠
        ([10, 11] : List Nat).getD i 0))).length ≤ 1 := by
  have happ := sample_ids_from_grad_contract [10, 11] [[0, 1, 2], [3, 4, 5]] 1 2 1 3 []
    (SamplerRand.mk (fun _ => [1, 0]) (fun _ _ => 1)) 0 (by decide)
    (by
      have h : List.range ([10, 11] : List Nat).length = [0, 1] := rfl
      rw [h]
      exact List.Perm.swap 0 1 [])
    (by decide) (by decide) (by decide)
    (by intro a b; show (1 : Nat) < 2; decide) (by decide)
    (by
      intro row hrow
      simp only [List.mem_cons, List.not_mem_nil, or_false] at hrow
      rcases hrow with h | h <;> subst h <;> rfl)
    (by decide)
  exact ⟨happ.1, happ.2.2.2.2.2.2⟩

/-- C7 counterexample: with a two-token vocabulary, token 0 disallowed
and topk 2 larger than the remaining allowed vocabulary, the masked
(plus infinity) column 0 still enters the top-K list, and the random
draw substitutes the disallowed token 0 into the candidate at the
chosen position 0, replacing the original token 1. -/
theorem sampler_disallowed_cex :
    sample_ids_from_grad [1] [[0, 5]] 1 2 1 [0]
        (SamplerRand.mk (fun _ => [0]) (fun _ _ => 1)) = [[0]] ∧
    samplePositions (SamplerRand.mk (fun _ => [0]) (fun _ _ => 1)) 1 0 = [0] ∧
    (0 : Nat) ∈ ([0] : List Nat) ∧ (1 : Nat) ≤ 2 ∧ (1 : Nat) ≤ 1 ∧ (1 : Nat) ≠ 0 := by
  refine ⟨?_, rfl, by decide, by decide, by decide, by decide⟩
  rfl

/-- C7 (amended): provided every gradient row keeps at least topk
allowed columns, that is topk plus the number of disallowed ids is at
most the vocabulary size, no disallowed token id is ever written into a
chosen slot of any candidate produced by sample_ids_from_grad.  Without
that proviso a disallowed id can be substituted, as the masked columns
overflow into the top-K selection. -/
theorem sampler_disallowed_amended (ids : List Nat) (grad : List (List Rat))
    (W K R V : Nat) (na : List Nat) (rnd : SamplerRand) (w : Nat) (hw : w < W)
    (hperm : (rnd.perm w).Perm (List.range ids.length))
    (hR : R ≤ ids.length) (hRpos : 1 ≤ R) (hKpos : 1 ≤ K)
    (hval : ∀ w r, rnd.val w r < K) (hgl : grad.length = ids.length)
    (hrows : ∀ row ∈ grad, row.length = V) (hcnt : K + na.length ≤ V) :
    ∀ r, r < R →
      ((sample_ids_from_grad ids grad W K R na rnd).getD w []).getD
        ((samplePositions rnd R w).getD r 0) 0 ∉ na := by
  intro r hr
  obtain ⟨hlen, hnodup, hlenpos, hmemlt, hunch, hslot⟩ :=
    sampler_slot_spec ids grad W K R na rnd w hw hperm hR hgl
  rw [hslot r hr]
  have hplt : (samplePositions rnd R w).getD r 0 < ids.length := by
    refine hmemlt _ ?_
    have hrlen : r < (samplePositions rnd R w).length := by omega
    exact getD_mem_of_lt _ _ hrlen
  have hrowlen : (grad.getD ((samplePositions rnd R w).getD r 0) []).length = V := by
    refine hrows _ ?_
    have hplt2 : (samplePositions rnd R w).getD r 0 < grad.length := by omega
    rw [List.getD_eq_getElem?_getD, List.getElem?_eq_getElem hplt2]
    exact List.getElem_mem hplt2
  refine topkIdsRow_allowed K _ na (by rw [hrowlen]; exact hcnt) _ ?_
  refine getD_mem_of_lt _ _ ?_
  rw [topkIdsRow_length, hrowlen]
  have := hval w r
  omega

/-- C7 witness for the amended statement: vocabulary of three tokens,
one disallowed, topk 1; the substituted token avoids the disallowed
id. -/
theorem sampler_disallowed_amended_witness :
    ((sample_ids_from_grad [7] [[1, 2, 9]] 1 1 1 [2]
        (SamplerRand.mk (fun _ => [0]) (fun _ _ => 0))).getD 0 []).getD
      ((samplePositions (SamplerRand.mk (fun _ => [0]) (fun _ _ => 0)) 1 0).getD 0 0) 0 ∉
      ([2] : List Nat) := by
  refine sampler_disallowed_amended [7] [[1, 2, 9]] 1 1 1 3 [2]
    (SamplerRand.mk (fun _ => [0]) (fun _ _ => 0)) 0 (by decide)
    (by
      have h : List.range ([7] : List Nat).length = [0] := rfl
      rw [h])
    (by decide) (by decide) (by decide)
    (by intro a b; show (0 : Nat) < 1; decide) (by decide)
    (by
      intro row hrow
      simp only [List.mem_cons, List.not_mem_nil, or_false] at hrow
      subst hrow
      rfl)
    (by decide) 0 (by decide)

/- ------------------------------------------------------------------ -/
/- Helper lemmas about the run loop.                                   -/
/- ------------------------------------------------------------------ -/

theorem firstMinPair_eq_none {α : Type} (l : List (Rat × α)) :
    firstMinPair l = none ↔ l = [] := by
  cases l with
  | nil => simp [firstMinPair]
  | cons p ps =>
    simp only [firstMinPair]
    constructor
    · intro h
      exfalso
      cases hm : firstMinPair ps with
      | none =>
        rw [hm] at h
        exact Option.noConfusion h
      | some q =>
        rw [hm] at h
        replace h : (if p.1 ≤ q.1 then some p else some q) = none := h
        by_cases hpq : p.1 ≤ q.1
        · rw [if_pos hpq] at h
          exact Option.noConfusion h
        · rw [if_neg hpq] at h
          exact Option.noConfusion h
    · intro h
      exact List.noConfusion h

theorem firstMinPair_spec {α : Type} :
    ∀ (l : List (Rat × α)) (m : Rat × α), firstMinPair l = some m →
      m ∈ l ∧ ∀ p ∈ l, m.1 ≤ p.1 := by
  intro l
  induction l with
  | nil => intro m h; simp [firstMinPair] at h
  | cons p ps ih =>
    intro m h
    simp only [firstMinPair] at h
    cases hm : firstMinPair ps with
    | none =>
      rw [hm] at h
      replace h : some p = some m := h
      have hps := (firstMinPair_eq_none ps).mp hm
      subst hps
      have hpm : p = m := Option.some.inj h
      subst hpm
      refine ⟨List.mem_cons_self _ _, ?_⟩
      intro x hx
      simp only [List.mem_singleton] at hx
      subst hx
      exact le_refl _
    | some q =>
      rw [hm] at h
      replace h : (if p.1 ≤ q.1 then some p else some q) = some m := h
      obtain ⟨hqmem, hqbound⟩ := ih q hm
      by_cases hpq : p.1 ≤ q.1
      · rw [if_pos hpq] at h
        have hpm : p = m := Option.some.inj h
        subst hpm
        refine ⟨List.mem_cons_self _ _, ?_⟩
        intro x hx
        rcases List.mem_cons.mp hx with h1 | h2
        · subst h1
          exact le_refl _
        · exact le_trans hpq (hqbound x h2)
      · rw [if_neg hpq] at h
        have hqm : q = m := Option.some.inj h
        subst hqm
        refine ⟨List.mem_cons_of_mem p hqmem, ?_⟩
        intro x hx
        rcases List.mem_cons.mp hx with h1 | h2
        · subst h1
          exact le_of_not_le hpq
        · exact hqbound x h2

theorem sstep_ok_spec {α : Type} (env : GCGEnv α) (sp : Option Rat) (i : Nat)
    (st st2 : LoopState α) (stop : Bool) (h : sstep env sp i st = Except.ok (st2, stop)) :
    ∃ cl cand, (cl, cand) ∈ env.oracle i st.optimIds ∧
      (∀ p ∈ env.oracle i st.optimIds, cl ≤ p.1) ∧
      st2.losses = st.losses ++ [cl] ∧
      st2.scores = st.scores ++ [env.score cl] ∧
      ∃ bids, st2.buffer.get_best_ids = some bids ∧
        st2.optimStrings = st.optimStrings ++ [env.decode bids] := by
  unfold sstep at h
  split at h
  · exact absurd h (by simp)
  · rename_i m hfm
    split at h
    · exact absurd h (by simp)
    · rename_i buf hbuf
      split at h
      · exact absurd h (by simp)
      · rename_i bids hbids
        simp only [Except.ok.injEq, Prod.mk.injEq] at h
        obtain ⟨h4, h5⟩ := h
        subst h4
        obtain ⟨hmem, hbound⟩ := firstMinPair_spec _ m hfm
        exact ⟨m.1, m.2, hmem, hbound, rfl, rfl, bids, hbids, rfl⟩

theorem sstep_len {α : Type} (env : GCGEnv α) (sp : Option Rat) (i : Nat)
    (st st2 : LoopState α) (stop : Bool) (h : sstep env sp i st = Except.ok (st2, stop)) :
    st2.losses.length = st.losses.length + 1 ∧
    st2.scores.length = st.scores.length + 1 ∧
    st2.optimStrings.length = st.optimStrings.length + 1 := by
  obtain ⟨cl, cand, _, _, h1, h2, bids, _, h3⟩ := sstep_ok_spec env sp i st st2 stop h
  rw [h1, h2, h3]
  simp

theorem runSteps_ok_spec {α : Type} (env : GCGEnv α) (sp : Option Rat) :
    ∀ (n i : Nat) (st st2 : LoopState α), runSteps env sp n i st = Except.ok st2 →
      ∃ k, k ≤ n ∧ (1 ≤ n → 1 ≤ k) ∧
        st2.losses.length = st.losses.length + k ∧
        st2.scores.length = st.scores.length + k ∧
        st2.optimStrings.length = st.optimStrings.length + k := by
  intro n
  induction n with
  | zero =>
    intro i st st2 h
    simp only [runSteps, Except.ok.injEq] at h
    subst h
    exact ⟨0, le_refl _, by omega, by omega, by omega, by omega⟩
  | succ n ih =>
    intro i st st2 h
    rw [runSteps] at h
    split at h
    · exact absurd h (by simp)
    · rename_i r hr
      obtain ⟨hl1, hl2, hl3⟩ := sstep_len env sp i st r.1 r.2 hr
      split at h
      · simp only [Except.ok.injEq] at h
        subst h
        exact ⟨1, by omega, by omega, by omega, by omega, by omega⟩
      · obtain ⟨k, hk, _, h1, h2, h3⟩ := ih (i + 1) r.1 st2 h
        exact ⟨k + 1, by omega, by omega, by omega, by omega, by omega⟩

theorem idxOfMin_eq_none (l : List Rat) : idxOfMin l = none ↔ l = [] := by
  cases l with
  | nil => simp [idxOfMin]
  | cons x xs =>
    simp only [idxOfMin]
    constructor
    · intro h
      exfalso
      cases hm : idxOfMin xs with
      | none =>
        rw [hm] at h
        exact Option.noConfusion h
      | some j =>
        rw [hm] at h
        replace h : (if x ≤ xs.getD j 0 then some 0 else some (j + 1)) = none := h
        by_cases hxj : x ≤ xs.getD j 0
        · rw [if_pos hxj] at h
          exact Option.noConfusion h
        · rw [if_neg hxj] at h
          exact Option.noConfusion h
    · intro h
      exact List.noConfusion h

theorem idxOfMin_spec :
    ∀ (l : List Rat) (m : Nat), idxOfMin l = some m →
      m < l.length ∧ (∀ x ∈ l, l.getD m 0 ≤ x) ∧
      (∀ j, j < m → l.getD m 0 < l.getD j 0) := by
  intro l
  induction l with
  | nil => intro m h; simp [idxOfMin] at h
  | cons x xs ih =>
    intro m h
    simp only [idxOfMin] at h
    cases hm : idxOfMin xs with
    | none =>
      rw [hm] at h
      replace h : some 0 = some m := h
      have hxs := (idxOfMin_eq_none xs).mp hm
      subst hxs
      have hm0 : (0 : Nat) = m := Option.some.inj h
      subst hm0
      refine ⟨by simp, ?_, ?_⟩
      · intro y hy
        simp only [List.mem_singleton] at hy
        subst hy
        simp
      · intro j hj
        omega
    | some j =>
      rw [hm] at h
      replace h : (if x ≤ xs.getD j 0 then some 0 else some (j + 1)) = some m := h
      obtain ⟨hjlt, hjmin, hjfirst⟩ := ih j hm
      by_cases hle : x ≤ xs.getD j 0
      · rw [if_pos hle] at h
        have hm0 : (0 : Nat) = m := Option.some.inj h
        subst hm0
        refine ⟨by simp, ?_, ?_⟩
        · intro y hy
          simp only [List.getD_cons_zero]
          rcases List.mem_cons.mp hy with h1 | h2
          · subst h1
            exact le_refl _
          · exact le_trans hle (hjmin y h2)
        · intro jj hjj
          omega
      · rw [if_neg hle] at h
        have hmj : j + 1 = m := Option.some.inj h
        subst hmj
        push_neg at hle
        rename' hle => hgt
        refine ⟨by simp only [List.length_cons]; omega, ?_, ?_⟩
        · intro y hy
          simp only [List.getD_cons_succ]
          rcases List.mem_cons.mp hy with h1 | h2
          · subst h1
            exact le_of_lt hgt
          · exact hjmin y h2
        · intro jj hjj
          simp only [List.getD_cons_succ]
          cases jj with
          | zero => simpa using hgt
          | succ jj2 =>
            simp only [List.getD_cons_succ]
            exact hjfirst jj2 (by omega)

/-- C10: whenever runGCG returns normally, the three history lists of
the result have the same length, equal to number_of_steps, which lies
between 1 and the configured step count; and with zero configured
steps the run always fails (Python min raises on the empty loss
history) instead of returning an empty result. -/
theorem runGCG_histories {α : Type} :
    (∀ (env : GCGEnv α) (n : Nat) (sp : Option Rat) (b0 : AttackBuffer α) (r : GCGResult),
      runGCG env n sp b0 = Except.ok r →
        r.losses.length = r.number_of_steps ∧ r.scores.length = r.number_of_steps ∧
        r.strings.length = r.number_of_steps ∧ 1 ≤ r.number_of_steps ∧
        r.number_of_steps ≤ n ∧ 1 ≤ n) ∧
    (∀ (env : GCGEnv α) (sp : Option Rat) (b0 : AttackBuffer α),
      ∃ msg, runGCG env 0 sp b0 = Except.error msg) := by
  constructor
  · intro env n sp b0 r h
    unfold runGCG at h
    split at h
    · exact absurd h (by simp)
    · rename_i ids0 hids
      split at h
      · exact absurd h (by simp)
      · rename_i st hst
        split at h
        · exact absurd h (by simp)
        · rename_i m hm
          obtain ⟨k, hk, hk1, h1, h2, h3⟩ := runSteps_ok_spec env sp n 0 _ st hst
          simp only [List.length_nil, Nat.zero_add] at h1 h2 h3
          have hmlt := (idxOfMin_spec st.losses m hm).1
          simp only [Except.ok.injEq] at h
          subst h
          refine ⟨rfl, ?_, ?_, ?_, ?_, ?_⟩
          · show st.scores.length = st.losses.length
            omega
          · show st.optimStrings.length = st.losses.length
            omega
          · show 1 ≤ st.losses.length
            omega
          · show st.losses.length ≤ n
            omega
          · omega
  · intro env sp b0
    unfold runGCG
    cases hids : b0.get_best_ids with
    | none => exact ⟨_, rfl⟩
    | some ids0 => exact ⟨_, rfl⟩

/-- C10 witness: a two-step run on a concrete environment, and the
failure of a zero-step run. -/
theorem runGCG_histories_witness :
    ((GCGResult.mk 2 2 "10" [2, 2] [2, 2] ["10", "10"] 2).losses.length =
        (GCGResult.mk 2 2 "10" [2, 2] [2, 2] ["10", "10"] 2).number_of_steps ∧
      (GCGResult.mk 2 2 "10" [2, 2] [2, 2] ["10", "10"] 2).scores.length =
        (GCGResult.mk 2 2 "10" [2, 2] [2, 2] ["10", "10"] 2).number_of_steps ∧
      (GCGResult.mk 2 2 "10" [2, 2] [2, 2] ["10", "10"] 2).strings.length =
        (GCGResult.mk 2 2 "10" [2, 2] [2, 2] ["10", "10"] 2).number_of_steps ∧
      1 ≤ (GCGResult.mk 2 2 "10" [2, 2] [2, 2] ["10", "10"] 2).number_of_steps ∧
      (GCGResult.mk 2 2 "10" [2, 2] [2, 2] ["10", "10"] 2).number_of_steps ≤ 2 ∧
      1 ≤ 2) ∧
    ∃ msg, runGCG demoEnv 0 none demoBuffer = Except.error msg :=
  ⟨runGCG_histories.1 demoEnv 2 none demoBuffer
      (GCGResult.mk 2 2 "10" [2, 2] [2, 2] ["10", "10"] 2) rfl,
    runGCG_histories.2 demoEnv none demoBuffer⟩

/-- C3 counterexample: in a one-step run whose only candidate has loss
2 and ids 20, the candidate is rejected by the buffer (its loss does
not beat the resident loss 1), so the recorded history string is the
decode "10" of the buffer best, not the decode "20" of the minimal
candidate of the step; the reported best_string is likewise "10" even
though best_loss 2 belongs to the candidate decoding to "20". -/
theorem runGCG_history_cex :
    runGCG demoEnv 1 none demoBuffer =
      Except.ok (GCGResult.mk 2 2 "10" [2] [2] ["10"] 1) ∧
    demoEnv.oracle 0 10 = [(2, 20)] ∧
    demoEnv.decode 20 = "20" ∧
    "10" ≠ "20" := by
  refine ⟨rfl, rfl, rfl, by decide⟩

/-- C3 (amended): every loop iteration appends to the histories the
minimal candidate loss of the step, its score, and the decoded string
of the buffer best after the buffer update of that step (which is the
decoded string of the minimal candidate only when that candidate is
accepted into the buffer and first after the sort); when the run finishes, the
result reports the triple (loss, score, string) of the recorded
histories at the first index attaining the global minimum of the loss
history, together with the full histories and the actual number of
executed steps. -/
theorem runGCG_reporting {α : Type} :
    (∀ (env : GCGEnv α) (sp : Option Rat) (i : Nat) (st st2 : LoopState α) (stop : Bool),
      sstep env sp i st = Except.ok (st2, stop) →
        ∃ cl cand, (cl, cand) ∈ env.oracle i st.optimIds ∧
          (∀ p ∈ env.oracle i st.optimIds, cl ≤ p.1) ∧
          st2.losses = st.losses ++ [cl] ∧
          st2.scores = st.scores ++ [env.score cl] ∧
          ∃ bids, st2.buffer.get_best_ids = some bids ∧
            st2.optimStrings = st.optimStrings ++ [env.decode bids]) ∧
    (∀ (env : GCGEnv α) (n : Nat) (sp : Option Rat) (b0 : AttackBuffer α) (r : GCGResult),
      runGCG env n sp b0 = Except.ok r →
        r.number_of_steps = r.losses.length ∧
        r.scores.length = r.losses.length ∧
        r.strings.length = r.losses.length ∧
        ∃ m, idxOfMin r.losses = some m ∧ m < r.losses.length ∧
          r.best_loss = r.losses.getD m 0 ∧
          r.best_score = r.scores.getD m 0 ∧
          r.best_string = r.strings.getD m "" ∧
          (∀ l ∈ r.losses, r.best_loss ≤ l) ∧
          (∀ j, j < m → r.best_loss < r.losses.getD j 0)) := by
  constructor
  · intro env sp i st st2 stop h
    exact sstep_ok_spec env sp i st st2 stop h
  · intro env n sp b0 r h
    unfold runGCG at h
    split at h
    · exact absurd h (by simp)
    · rename_i ids0 hids
      split at h
      · exact absurd h (by simp)
      · rename_i st hst
        split at h
        · exact absurd h (by simp)
        · rename_i m hm
          obtain ⟨k, hk, hk1, h1, h2, h3⟩ := runSteps_ok_spec env sp n 0 _ st hst
          simp only [List.length_nil, Nat.zero_add] at h1 h2 h3
          obtain ⟨hmlt, hmin, hfirst⟩ := idxOfMin_spec st.losses m hm
          simp only [Except.ok.injEq] at h
          subst h
          refine ⟨rfl, ?_, ?_, m, hm, hmlt, rfl, rfl, rfl, hmin, hfirst⟩
          · show st.scores.length = st.losses.length
            omega
          · show st.optimStrings.length = st.losses.length
            omega

/-- C3 witness: the amended statement evaluated on the concrete
environment, for one loop iteration and for a full one-step run. -/
theorem runGCG_reporting_witness :
    (∃ cl cand, (cl, cand) ∈ demoEnv.oracle 0 10 ∧
      (∀ p ∈ demoEnv.oracle 0 10, cl ≤ p.1) ∧
      (LoopState.mk demoBuffer 10 [2] [2] ["10"]).losses = [] ++ [cl] ∧
      (LoopState.mk demoBuffer 10 [2] [2] ["10"]).scores = [] ++ [demoEnv.score cl] ∧
      ∃ bids, (LoopState.mk demoBuffer 10 [2] [2] ["10"]).buffer.get_best_ids = some bids ∧
        (LoopState.mk demoBuffer 10 [2] [2] ["10"]).optimStrings = [] ++ [demoEnv.decode bids]) ∧
    ((GCGResult.mk 2 2 "10" [2] [2] ["10"] 1).number_of_steps =
        (GCGResult.mk 2 2 "10" [2] [2] ["10"] 1).losses.length ∧
      (GCGResult.mk 2 2 "10" [2] [2] ["10"] 1).scores.length =
        (GCGResult.mk 2 2 "10" [2] [2] ["10"] 1).losses.length ∧
      (GCGResult.mk 2 2 "10" [2] [2] ["10"] 1).strings.length =
        (GCGResult.mk 2 2 "10" [2] [2] ["10"] 1).losses.length ∧
      ∃ m, idxOfMin (GCGResult.mk 2 2 "10" [2] [2] ["10"] 1).losses = some m ∧
        m < (GCGResult.mk 2 2 "10" [2] [2] ["10"] 1).losses.length ∧
        (GCGResult.mk 2 2 "10" [2] [2] ["10"] 1).best_loss =
          (GCGResult.mk 2 2 "10" [2] [2] ["10"] 1).losses.getD m 0 ∧
        (GCGResult.mk 2 2 "10" [2] [2] ["10"] 1).best_score =
          (GCGResult.mk 2 2 "10" [2] [2] ["10"] 1).scores.getD m 0 ∧
        (GCGResult.mk 2 2 "10" [2] [2] ["10"] 1).best_string =
          (GCGResult.mk 2 2 "10" [2] [2] ["10"] 1).strings.getD m "" ∧
        (∀ l ∈ (GCGResult.mk 2 2 "10" [2] [2] ["10"] 1).losses,
          (GCGResult.mk 2 2 "10" [2] [2] ["10"] 1).best_loss ≤ l) ∧
        (∀ j, j < m →
          (GCGResult.mk 2 2 "10" [2] [2] ["10"] 1).best_loss <
            (GCGResult.mk 2 2 "10" [2] [2] ["10"] 1).losses.getD j 0)) :=
  ⟨runGCG_reporting.1 demoEnv none 0 (LoopState.mk demoBuffer 10 [] [] [])
      (LoopState.mk demoBuffer 10 [2] [2] ["10"]) false rfl,
    runGCG_reporting.2 demoEnv 1 none demoBuffer
      (GCGResult.mk 2 2 "10" [2] [2] ["10"] 1) rfl⟩
